import Mathlib

/-!
Verification of the relay aggregation and timeline-synchronization core
(`ClientService`) of a relay-based social-networking client.

The definitions below are a shallow embedding of the TypeScript source:
pure fragments become Lean functions, and the callback-driven asynchronous
fragments become explicit state machines driven by traces of delivery
events, following the single-threaded cooperative execution model of the
source platform (every interleaving of asynchronous continuations is a
trace; state mutations inside one callback are atomic).
-/

namespace Seewaan

/-- A protocol event (`Event` from nostr-tools, called `NEvent` in the source).
Only fields used by the verified code paths are carried. -/
structure NEvent where
  id : String
  pubkey : String
  created_at : Int
  kind : Int
  tags : List (List String)
  content : String
deriving DecidableEq, Repr

/-- `type TTimelineRef = [string, number]`: a timeline reference, pairing an
event id with its `created_at` timestamp. -/
abbrev TTimelineRef := String × Int

/-! ## Multi-relay subscription: shared-id-set deduplication (`subscribe`)

`ClientService.subscribe` keeps one shared `_knownIds` set. Each relay
sub-subscription consults `alreadyHaveEvent` (which records the id and
suppresses known ids) before invoking `onevent`, and the local event-bus
handler `handleNewEventFromInternal` first checks `matchFilters`, then the
same `_knownIds` set, before invoking `onevent`. -/

/-- One delivery reaching the shared subscription: either a relay
sub-subscription delivering an event, or the in-process event bus notifying
a locally published event. -/
inductive SubDelivery where
  | relay (e : NEvent)
  | bus (e : NEvent)
deriving DecidableEq, Repr

/-- State of one logical `subscribe` call: the shared `_knownIds` set and the
sequence of events passed to the caller `onevent` callback so far. -/
structure SubDedupState where
  knownIds : List String
  delivered : List NEvent
deriving DecidableEq, Repr

/-- Processing of one delivery by `subscribe`. The relay path is the
`alreadyHaveEvent` hook (record id, suppress duplicates) followed by
`onevent`; the bus path is `handleNewEventFromInternal` (`matchFilters`
check, then the same id-set check). `matchf` stands for
`matchFilters(filters, evt)`. -/
def dedupStep (matchf : NEvent → Bool) (s : SubDedupState) : SubDelivery → SubDedupState
  | .relay e =>
    if s.knownIds.contains e.id then s
    else { knownIds := s.knownIds ++ [e.id], delivered := s.delivered ++ [e] }
  | .bus e =>
    if !matchf e then s
    else if s.knownIds.contains e.id then s
    else { knownIds := s.knownIds ++ [e.id], delivered := s.delivered ++ [e] }

/-- Run a whole trace of deliveries through `subscribe`. -/
def dedupRun (matchf : NEvent → Bool) (s : SubDedupState) (tr : List SubDelivery) : SubDedupState :=
  tr.foldl (dedupStep matchf) s

/-- Initial state of a fresh `subscribe` call: empty `_knownIds`, nothing
delivered. -/
def dedupInit : SubDedupState := { knownIds := [], delivered := [] }

/-- Number of `onevent` invocations carrying the event id `i`. -/
def deliveredCount (s : SubDedupState) (i : String) : Nat :=
  s.delivered.countP (fun e => e.id == i)

theorem dedupStep_knownIds_mono (matchf : NEvent → Bool) (s : SubDedupState)
    (d : SubDelivery) (i : String) (h : s.knownIds.contains i = true) :
    (dedupStep matchf s d).knownIds.contains i = true := by
  cases d with
  | relay e =>
    simp only [dedupStep]
    split
    · exact h
    · simpa using Or.inl (by simpa using h)
  | bus e =>
    simp only [dedupStep]
    split
    · exact h
    · split
      · exact h
      · simpa using Or.inl (by simpa using h)

/-- Invariant carried through a `subscribe` run: an id not yet in
`_knownIds` has never been delivered, and no id is ever delivered twice. -/
def DedupInv (s : SubDedupState) (i : String) : Prop :=
  (s.knownIds.contains i = false → deliveredCount s i = 0) ∧ deliveredCount s i ≤ 1

theorem dedupStep_inv (matchf : NEvent → Bool) (s : SubDedupState) (d : SubDelivery)
    (i : String) (h : DedupInv s i) : DedupInv (dedupStep matchf s d) i := by
  obtain ⟨h0, h1⟩ := h
  have main : ∀ e : NEvent, s.knownIds.contains e.id = false →
      DedupInv { knownIds := s.knownIds ++ [e.id], delivered := s.delivered ++ [e] } i := by
    intro e he
    constructor
    · intro hni
      simp only [deliveredCount, List.countP_append] at *
      have : (s.knownIds ++ [e.id]).contains i = true → False := by
        intro hc
        rw [hni] at hc
        exact absurd hc (by simp)
      by_cases hei : e.id = i
      · exact absurd (by simp [hei]) this
      · have hki : s.knownIds.contains i = false := by
          by_contra hk
          have hk' : s.knownIds.contains i = true := by
            cases hc : s.knownIds.contains i
            · exact absurd hc hk
            · rfl
          refine this ?_
          simp at hk' ⊢
          exact Or.inl hk'
        have := h0 hki
        simp only [deliveredCount] at this
        simp [this, List.countP_cons, hei]
    · simp only [deliveredCount, List.countP_append] at *
      by_cases hei : e.id = i
      · have hki : s.knownIds.contains i = false := by rw [← hei]; exact he
        have := h0 hki
        simp only [deliveredCount] at this
        simp [this, List.countP_cons, hei]
      · simpa [List.countP_cons, hei] using h1
  cases d with
  | relay e =>
    simp only [dedupStep]
    split
    · exact ⟨h0, h1⟩
    · rename_i hc
      exact main e (by cases hh : s.knownIds.contains e.id
                       · rfl
                       · exact absurd hh hc)
  | bus e =>
    simp only [dedupStep]
    split
    · exact ⟨h0, h1⟩
    · split
      · exact ⟨h0, h1⟩
      · rename_i hc
        exact main e (by cases hh : s.knownIds.contains e.id
                         · rfl
                         · exact absurd hh hc)

theorem dedupRun_inv (matchf : NEvent → Bool) (tr : List SubDelivery)
    (s : SubDedupState) (i : String) (h : DedupInv s i) :
    DedupInv (dedupRun matchf s tr) i := by
  induction tr generalizing s with
  | nil => exact h
  | cons d rest ih => exact ih (dedupStep matchf s d) (dedupStep_inv matchf s d i h)

/-- Claim C1: for every multi-relay subscription created by `subscribe`, over
any filters (`matchf`) and any interleaved trace of relay deliveries and
local event-bus notifications, the caller `onevent` callback receives an
event of any given id at most once: the shared `_knownIds` set suppresses
every later delivery of an id that was delivered before. -/
theorem subscribe_onevent_dedup (matchf : NEvent → Bool) (tr : List SubDelivery)
    (i : String) : deliveredCount (dedupRun matchf dedupInit tr) i ≤ 1 := by
  have h0 : DedupInv dedupInit i := by
    constructor
    · intro _; rfl
    · simp [deliveredCount, dedupInit]
  exact (dedupRun_inv matchf tr dedupInit i h0).2

/-! ## Multi-relay subscription: global EOSE accounting (`subscribe`)

`subscribe` keeps `startedCount`, `eosedCount` and the boolean `eosed`.
`startSub` increments `startedCount` on entry (for the initial relays and
for each auth-triggered restart). A relay reaching its own EOSE, and a
relay that failed to connect, both run the same guarded accounting:
`if (eosed) return; eosedCount++; eosed = eosedCount >= startedCount;
oneose?.(eosed)`. -/

/-- One accounting-relevant occurrence inside a `subscribe` call: `start` is
a `startSub` entry (initial relay or auth restart); `eose` is either one
relay sub-subscription reaching its own EOSE or a relay failing to connect
(counted as an immediate EOSE by the source). -/
inductive EoseEvent where
  | start
  | eose
deriving DecidableEq, Repr

/-- The EOSE-relevant mutable state of one `subscribe` call, plus the
arguments of the `oneose` invocations made so far. -/
structure EoseState where
  startedCount : Nat
  eosedCount : Nat
  eosed : Bool
  emissions : List Bool
deriving DecidableEq, Repr

/-- One accounting step of `subscribe`. -/
def eoseStep (s : EoseState) : EoseEvent → EoseState
  | .start => { s with startedCount := s.startedCount + 1 }
  | .eose =>
    if s.eosed then s
    else
      let c := s.eosedCount + 1
      let e := decide (s.startedCount ≤ c)
      { startedCount := s.startedCount, eosedCount := c, eosed := e,
        emissions := s.emissions ++ [e] }

/-- Run a trace of starts and per-relay EOSEs through `subscribe`. -/
def eoseRun (s : EoseState) (tr : List EoseEvent) : EoseState :=
  tr.foldl eoseStep s

/-- Initial EOSE state of a `subscribe` call. -/
def eoseInit : EoseState := { startedCount := 0, eosedCount := 0, eosed := false, emissions := [] }

/-- Invariant: the `eosed` flag records whether `oneose` has been invoked
with `true`, and that happens at most once. -/
def EoseInv (s : EoseState) : Prop :=
  s.emissions.count true ≤ 1 ∧ (s.eosed = true ↔ s.emissions.count true = 1)

theorem eoseStep_inv (s : EoseState) (ev : EoseEvent) (h : EoseInv s) :
    EoseInv (eoseStep s ev) := by
  obtain ⟨h1, h2⟩ := h
  cases ev with
  | start => exact ⟨h1, h2⟩
  | eose =>
    simp only [eoseStep]
    split
    · exact ⟨h1, h2⟩
    · rename_i hne
      have hz : s.emissions.count true = 0 := by
        rcases Nat.lt_or_ge (s.emissions.count true) 1 with hlt | hge
        · omega
        · exact absurd (h2.mpr (by omega)) hne
      by_cases hc : s.startedCount ≤ s.eosedCount + 1
      · constructor
        · simp [List.count_append, hz, hc]
        · simp [List.count_append, hz, hc]
      · constructor
        · simp [List.count_append, hz, hc]
        · simp [List.count_append, hz, hc]

theorem eoseRun_inv (tr : List EoseEvent) (s : EoseState) (h : EoseInv s) :
    EoseInv (eoseRun s tr) := by
  induction tr generalizing s with
  | nil => exact h
  | cons ev rest ih => exact ih (eoseStep s ev) (eoseStep_inv s ev h)

/-- Claim C2: over any interleaving of sub-subscription starts (initial
relays and auth restarts) and per-relay EOSE or connect-failure
occurrences, the caller `oneose` callback receives `true` at most once;
it has received `true` exactly once precisely when the `eosed` flag is
set; a `start` never invokes `oneose`; and an `eose` occurrence invokes
`oneose` with `true` exactly when the flag was still unset and the
incremented count of individually-eosed (or connect-failed)
sub-subscriptions reaches the count of sub-subscriptions started. -/
theorem subscribe_oneose_once_at_completion :
    (∀ tr : List EoseEvent, (eoseRun eoseInit tr).emissions.count true ≤ 1) ∧
    (∀ tr : List EoseEvent,
      ((eoseRun eoseInit tr).eosed = true ↔ (eoseRun eoseInit tr).emissions.count true = 1)) ∧
    (∀ s : EoseState, (eoseStep s .start).emissions = s.emissions) ∧
    (∀ s : EoseState,
      (eoseStep s .eose).emissions = s.emissions ++ [true] ↔
        (s.eosed = false ∧ s.startedCount ≤ s.eosedCount + 1)) := by
  have base : EoseInv eoseInit := by
    constructor
    · simp [eoseInit]
    · simp [eoseInit]
  refine ⟨fun tr => (eoseRun_inv tr eoseInit base).1,
          fun tr => (eoseRun_inv tr eoseInit base).2, fun s => rfl, fun s => ?_⟩
  constructor
  · intro h
    simp only [eoseStep] at h
    by_cases he : s.eosed
    · rw [if_pos he] at h
      exact absurd (congrArg List.length h) (by simp)
    · refine ⟨by simpa using he, ?_⟩
      rw [if_neg he] at h
      by_cases hc : s.startedCount ≤ s.eosedCount + 1
      · exact hc
      · exfalso
        simp [hc] at h
  · rintro ⟨he, hc⟩
    simp [eoseStep, he, hc]

/-! ## Publish quorum (`publishEvent`)

`publishEvent` deduplicates the target urls, then maps one async function
per relay. Each function first runs `await this.pool.ensureRelay(url)`
with no catch: when that connection attempt rejects, the function rejects
right there, the `publish().then().catch().finally()` chain is never
built, and `Promise.allSettled` swallows the rejection, so such a relay
contributes no success, no error entry and no `finishedCount` increment.
For a relay whose connection succeeds, a publish success increments
`successCount` and a failure whose message does not trigger the
auth-retry path pushes a formatted reason onto `errors` (a failure that
does enter the auth-retry path pushes nothing and increments nothing).
The shared `finally` block then resolves the overall promise as soon as
`successCount >= uniqueRelayUrls.length / 3`, and, once
`++finishedCount >= uniqueRelayUrls.length`, rejects it with
`AggregateError(errors)`; a promise settles only once, and the quorum
check is made before the finished check. -/

/-- The final behaviour of one relay inside `publishEvent`: an
acknowledgement, a publish failure with its formatted reason string, a
publish failure that entered the auth-retry branch (signer present,
message starting `auth-required`), which records neither a success nor an
error but still runs the `finally`, or a rejection of the un-caught
`await pool.ensureRelay(url)`, after which nothing of the per-relay chain
runs at all. -/
inductive PubOutcome where
  | ok
  | fail (reason : String)
  | authRetry
  | connectFail
deriving DecidableEq, Repr

/-- The mutable state of one `publishEvent` call. `result` is the overall
promise: `none` while pending, and a settled promise never changes. -/
structure PubState where
  successCount : Nat
  finishedCount : Nat
  errors : List String
  result : Option (Except (List String) Unit)
deriving Repr

/-- The per-relay effect on the shared state: for a `connectFail` the
chain was never built, so the state is untouched; otherwise the outcome
effect runs, then the `finally` block (quorum check first, then
all-finished check). -/
def pubStep (n : Nat) (s : PubState) (o : PubOutcome) : PubState :=
  match o with
  | .connectFail => s
  | o =>
    let s1 : PubState :=
      match o with
      | .ok => { s with successCount := s.successCount + 1 }
      | .fail r => { s with errors := s.errors ++ [r] }
      | _ => s
    let s2 : PubState :=
      if n ≤ 3 * s1.successCount then
        match s1.result with
        | none => { s1 with result := some (.ok ()) }
        | some _ => s1
      else s1
    let s3 : PubState := { s2 with finishedCount := s2.finishedCount + 1 }
    if n ≤ s3.finishedCount then
      match s3.result with
      | none => { s3 with result := some (.error s3.errors) }
      | some _ => s3
    else s3

/-- Run `publishEvent` over `n` unique relay urls through a sequence of
per-relay outcomes (at most one per relay, in any interleaving). -/
def pubRun (n : Nat) (outcomes : List PubOutcome) : PubState :=
  outcomes.foldl (pubStep n) { successCount := 0, finishedCount := 0, errors := [], result := none }

/-- Number of acknowledging relays in an outcome sequence. -/
def pubOkCount (outcomes : List PubOutcome) : Nat :=
  outcomes.countP (fun o => match o with | .ok => true | _ => false)

/-- Number of relays whose chain ran its `finally` (everything except a
`connectFail`): the relays counted by `finishedCount`. -/
def pubSettledCount (outcomes : List PubOutcome) : Nat :=
  outcomes.countP (fun o => match o with | .connectFail => false | _ => true)

/-- The reasons pushed onto `errors`, i.e. those of the relays that failed
without entering the auth-retry branch, in settlement order. -/
def pubFailReasons (outcomes : List PubOutcome) : List String :=
  outcomes.filterMap (fun o => match o with | .fail r => some r | _ => none)

/-- Closed form of the `publishEvent` promise after an outcome sequence:
resolved as soon as the one-third quorum is met; rejected with the
collected errors once `finishedCount` reaches `n`, which only relays that
ran their `finally` contribute to; pending otherwise - in particular
pending forever when the quorum is missed and some relay's `ensureRelay`
rejected. -/
def pubResultSpec (n : Nat) (outcomes : List PubOutcome) : Option (Except (List String) Unit) :=
  if n ≤ 3 * pubOkCount outcomes then some (.ok ())
  else if n ≤ pubSettledCount outcomes then some (.error (pubFailReasons outcomes))
  else none

theorem pubRun_closed_form (n : Nat) (hn : 0 < n) (outcomes : List PubOutcome)
    (hlen : outcomes.length ≤ n) :
    pubRun n outcomes =
      { successCount := pubOkCount outcomes, finishedCount := pubSettledCount outcomes,
        errors := pubFailReasons outcomes, result := pubResultSpec n outcomes } := by
  induction outcomes using List.reverseRecOn with
  | nil =>
    have h0 : ¬ n ≤ 0 := by omega
    simp [pubRun, pubOkCount, pubSettledCount, pubFailReasons, pubResultSpec, h0]
  | append_singleton p o ih =>
    have hL : p.length + 1 ≤ n := by simpa using hlen
    have hp : p.length ≤ n := by omega
    have hsl : pubSettledCount p ≤ p.length := List.countP_le_length _
    have hLn : ¬ n ≤ pubSettledCount p := by omega
    have hLn2 : pubSettledCount p < n := by omega
    have hrun : pubRun n (p ++ [o]) = pubStep n (pubRun n p) o := by
      simp [pubRun, List.foldl_append]
    rw [hrun, ih hp]
    cases o with
    | ok =>
      have hcount : pubOkCount (p ++ [.ok]) = pubOkCount p + 1 := by
        simp [pubOkCount, List.countP_append]
      have hsettled : pubSettledCount (p ++ [.ok]) = pubSettledCount p + 1 := by
        simp [pubSettledCount, List.countP_append]
      have hreasons : pubFailReasons (p ++ [.ok]) = pubFailReasons p := by
        simp [pubFailReasons, List.filterMap_append]
      by_cases hq0 : n ≤ 3 * pubOkCount p
      · have hq : n ≤ 3 * (pubOkCount p + 1) := by omega
        simp [pubStep, pubResultSpec, hq, hq0, hLn, hLn2, hcount, hsettled, hreasons]
      · by_cases hq : n ≤ 3 * (pubOkCount p + 1)
        · simp [pubStep, pubResultSpec, hq, hq0, hLn, hLn2, hcount, hsettled, hreasons]
        · by_cases hf : n ≤ pubSettledCount p + 1
          · simp [pubStep, pubResultSpec, hq, hq0, hf, hLn, hLn2, hcount, hsettled, hreasons]
          · simp [pubStep, pubResultSpec, hq, hq0, hf, hLn, hLn2, hcount, hsettled, hreasons]
    | fail r =>
      have hcount : pubOkCount (p ++ [.fail r]) = pubOkCount p := by
        simp [pubOkCount, List.countP_append]
      have hsettled : pubSettledCount (p ++ [.fail r]) = pubSettledCount p + 1 := by
        simp [pubSettledCount, List.countP_append]
      have hreasons : pubFailReasons (p ++ [.fail r]) = pubFailReasons p ++ [r] := by
        simp [pubFailReasons, List.filterMap_append]
      by_cases hq0 : n ≤ 3 * pubOkCount p
      · simp [pubStep, pubResultSpec, hq0, hLn, hLn2, hcount, hsettled, hreasons]
      · by_cases hf : n ≤ pubSettledCount p + 1
        · simp [pubStep, pubResultSpec, hq0, hf, hLn, hLn2, hcount, hsettled, hreasons]
        · simp [pubStep, pubResultSpec, hq0, hf, hLn, hLn2, hcount, hsettled, hreasons]
    | authRetry =>
      have hcount : pubOkCount (p ++ [.authRetry]) = pubOkCount p := by
        simp [pubOkCount, List.countP_append]
      have hsettled : pubSettledCount (p ++ [.authRetry]) = pubSettledCount p + 1 := by
        simp [pubSettledCount, List.countP_append]
      have hreasons : pubFailReasons (p ++ [.authRetry]) = pubFailReasons p := by
        simp [pubFailReasons, List.filterMap_append]
      by_cases hq0 : n ≤ 3 * pubOkCount p
      · simp [pubStep, pubResultSpec, hq0, hLn, hLn2, hcount, hsettled, hreasons]
      · by_cases hf : n ≤ pubSettledCount p + 1
        · simp [pubStep, pubResultSpec, hq0, hf, hLn, hLn2, hcount, hsettled, hreasons]
        · simp [pubStep, pubResultSpec, hq0, hf, hLn, hLn2, hcount, hsettled, hreasons]
    | connectFail =>
      have hcount : pubOkCount (p ++ [.connectFail]) = pubOkCount p := by
        simp [pubOkCount, List.countP_append]
      have hsettled : pubSettledCount (p ++ [.connectFail]) = pubSettledCount p := by
        simp [pubSettledCount, List.countP_append]
      have hreasons : pubFailReasons (p ++ [.connectFail]) = pubFailReasons p := by
        simp [pubFailReasons, List.filterMap_append]
      simp [pubStep, pubResultSpec, hcount, hsettled, hreasons]

/-- A sequence for 9 relays that all connect, in which exactly 2 relays
acknowledge and the other 7 fail with plain (non-auth) errors. -/
def pubCexOutcomes : List PubOutcome :=
  [.ok, .ok, .fail "r3: e3", .fail "r4: e4", .fail "r5: e5", .fail "r6: e6",
   .fail "r7: e7", .fail "r8: e8", .fail "r9: e9"]

/-- Claim C3, counterexample: with 9 target relays of which only 2
acknowledge, `publishEvent` rejects with an aggregate carrying the 7
failure entries, not an aggregate listing all 9 outcomes as the claim
states. -/
theorem publishEvent_aggregate_lists_seven_not_nine :
    (pubRun 9 pubCexOutcomes).result =
      some (.error ["r3: e3", "r4: e4", "r5: e5", "r6: e6", "r7: e7", "r8: e8", "r9: e9"]) ∧
    ["r3: e3", "r4: e4", "r5: e5", "r6: e6", "r7: e7", "r8: e8", "r9: e9"].length ≠ 9 := by
  exact ⟨rfl, by decide⟩

/-- Claim C3 (amended): for a `publishEvent` call over `n` distinct relay
urls, the overall promise resolves successfully exactly when at least
`ceil(n/3)` relays acknowledge (`n <= 3 * okCount`), and it already
resolves at any earlier point of the outcome sequence where the quorum is
reached, while the remaining relays are still pending. If fewer than
`ceil(n/3)` relays ever acknowledge, then: when every relay ran its
publish chain to the `finally` (no relay failed at the un-caught
`ensureRelay` await), the promise rejects with an aggregate error
enumerating the failure reason of every relay that failed outside the
auth-retry branch (7 entries for 2 acknowledgements out of 9 plain
failures, not all 9 outcomes); but when some relay failed to connect, its
chain never ran, `finishedCount` never reaches `n`, and the promise never
settles at all. -/
theorem publishEvent_quorum (n : Nat) (outcomes : List PubOutcome)
    (hn : 0 < n) (hlen : outcomes.length ≤ n) :
    ((pubRun n outcomes).result = some (.ok ()) ↔ n ≤ 3 * pubOkCount outcomes) ∧
    (3 * pubOkCount outcomes < n → pubSettledCount outcomes = n →
      (pubRun n outcomes).result = some (.error (pubFailReasons outcomes))) ∧
    (3 * pubOkCount outcomes < n → pubSettledCount outcomes < n →
      (pubRun n outcomes).result = none) ∧
    (∀ k, n ≤ 3 * pubOkCount (outcomes.take k) →
      (pubRun n (outcomes.take k)).result = some (.ok ())) := by
  have hfull := pubRun_closed_form n hn outcomes hlen
  refine ⟨?_, ?_, ?_, ?_⟩
  · rw [hfull]
    by_cases hq : n ≤ 3 * pubOkCount outcomes
    · simp [pubResultSpec, hq]
    · by_cases hs : n ≤ pubSettledCount outcomes
      · simp [pubResultSpec, hq, hs]
      · simp [pubResultSpec, hq, hs]
  · intro hq hs
    rw [hfull]
    have hq2 : ¬ n ≤ 3 * pubOkCount outcomes := by omega
    have hs2 : n ≤ pubSettledCount outcomes := by omega
    simp [pubResultSpec, hq2, hs2]
  · intro hq hs
    rw [hfull]
    have hq2 : ¬ n ≤ 3 * pubOkCount outcomes := by omega
    have hs2 : ¬ n ≤ pubSettledCount outcomes := by omega
    simp [pubResultSpec, hq2, hs2]
  · intro k hk
    have htk : (outcomes.take k).length ≤ n := by
      rw [List.length_take]
      omega
    rw [pubRun_closed_form n hn (outcomes.take k) htk]
    simp [pubResultSpec, hk]

/-- A sequence for 9 relays whose first three outcomes are
acknowledgements. -/
def pubWitnessOutcomes : List PubOutcome :=
  [.ok, .ok, .ok, .fail "r4: e4", .fail "r5: e5", .fail "r6: e6",
   .fail "r7: e7", .fail "r8: e8", .fail "r9: e9"]

theorem publishEvent_quorum_witness :
    (pubRun 9 pubWitnessOutcomes).result = some (.ok ()) ∧
    (pubRun 9 (pubWitnessOutcomes.take 3)).result = some (.ok ()) ∧
    (pubRun 3 [PubOutcome.connectFail, PubOutcome.connectFail,
      PubOutcome.connectFail]).result = none :=
  ⟨(publishEvent_quorum 9 pubWitnessOutcomes (by decide) (by decide)).1.mpr (by decide),
   (publishEvent_quorum 9 pubWitnessOutcomes (by decide) (by decide)).2.2.2 3 (by decide),
   (publishEvent_quorum 3 [PubOutcome.connectFail, PubOutcome.connectFail,
      PubOutcome.connectFail] (by decide) (by decide)).2.2.1 (by decide) (by decide)⟩

/-! ## Stable sorting

The platform `Array.prototype.sort` is stable; the source always sorts
events with the comparator `(a, b) => b.created_at - a.created_at`, i.e. a
stable descending sort by `created_at` that keeps arrival order among
events with equal timestamps. It is modelled by a stable insertion sort:
`insertStable le x acc` keeps every earlier element `y` with `le y x` in
front of `x`, so equal elements retain their original relative order. -/

def insertStable {α : Type} (le : α → α → Bool) (x : α) : List α → List α
  | [] => [x]
  | y :: ys => if le y x then y :: insertStable le x ys else x :: y :: ys

def stableSort {α : Type} (le : α → α → Bool) (l : List α) : List α :=
  l.foldl (fun acc x => insertStable le x acc) []

/-- `events.sort((a, b) => b.created_at - a.created_at)`. -/
def sortEventsDesc (l : List NEvent) : List NEvent :=
  stableSort (fun a b => decide (b.created_at ≤ a.created_at)) l

theorem mem_insertStable {α : Type} (le : α → α → Bool) (x a : α) (l : List α) :
    a ∈ insertStable le x l ↔ a = x ∨ a ∈ l := by
  induction l with
  | nil => simp [insertStable]
  | cons y ys ih =>
    simp only [insertStable]
    split
    · rw [List.mem_cons, ih, List.mem_cons]
      tauto
    · rw [List.mem_cons]

theorem mem_stableSort {α : Type} (le : α → α → Bool) (a : α) (l : List α) :
    a ∈ stableSort le l ↔ a ∈ l := by
  have main : ∀ (l acc : List α), a ∈ l.foldl (fun acc x => insertStable le x acc) acc ↔
      a ∈ acc ∨ a ∈ l := by
    intro l
    induction l with
    | nil => simp
    | cons x xs ih =>
      intro acc
      simp only [List.foldl_cons]
      rw [ih]
      rw [mem_insertStable]
      simp
      tauto
  simpa using main l []

theorem mem_sortEventsDesc (a : NEvent) (l : List NEvent) :
    a ∈ sortEventsDesc l ↔ a ∈ l :=
  mem_stableSort _ a l

/-! ## Multi-timeline aggregator (`subscribeTimeline`)

`subscribeTimeline` drives one `_subscribeTimeline` per sub-request and
merges their `onEvents` callbacks: it counts inner batches flagged
`eosed`, merges events into a shared id-deduplicated list, re-sorts and
truncates to the firing sub-request filter limit whenever the batch is
non-empty, and calls the caller `onEvents(events, eosedCount >=
requestCount)` whenever `eosedCount >= Math.floor(requestCount / 2)`. -/

/-- One inner `onEvents` callback from a sub-timeline: the reported batch,
its `eosed` flag, and the firing sub-request filter limit. -/
structure AggBatch where
  events : List NEvent
  eosed : Bool
  limit : Nat
deriving Repr

/-- The mutable state shared by the inner callbacks of one
`subscribeTimeline` call, plus the caller-facing `onEvents` invocations
made so far. -/
structure AggState where
  eosedCount : Nat
  events : List NEvent
  eventIds : List String
  emissions : List (List NEvent × Bool)
deriving Repr

/-- The inner `onEvents` handler built by `subscribeTimeline`. -/
def aggStep (requestCount : Nat) (s : AggState) (b : AggBatch) : AggState :=
  let ec := if b.eosed then s.eosedCount + 1 else s.eosedCount
  let merged := b.events.foldl
    (fun (acc : List NEvent × List String) evt =>
      if acc.2.contains evt.id then acc else (acc.1 ++ [evt], acc.2 ++ [evt.id]))
    (s.events, s.eventIds)
  let cur :=
    if 0 < b.events.length then
      let sorted := (sortEventsDesc merged.1).take b.limit
      (sorted, sorted.map (fun e => e.id))
    else merged
  if requestCount / 2 ≤ ec then
    { eosedCount := ec, events := cur.1, eventIds := cur.2,
      emissions := s.emissions ++ [(cur.1, decide (requestCount ≤ ec))] }
  else { eosedCount := ec, events := cur.1, eventIds := cur.2, emissions := s.emissions }

/-- Run one `subscribeTimeline` call over a trace of inner callbacks. -/
def aggRun (requestCount : Nat) (tr : List AggBatch) : AggState :=
  tr.foldl (aggStep requestCount) { eosedCount := 0, events := [], eventIds := [], emissions := [] }

/-- The claimed behaviour, written from the specification words: walking
the inner callbacks while counting sub-timelines that reached EOSE, the
caller is invoked exactly at the callbacks where the count is at least
`floor(requestCount / 2)`, with flag `eosedCount >= requestCount`. -/
def aggFlagsClaimed (requestCount : Nat) (c : Nat) : List AggBatch → List Bool
  | [] => []
  | b :: rest =>
    let c2 := if b.eosed then c + 1 else c
    (if requestCount / 2 ≤ c2 then [decide (requestCount ≤ c2)] else []) ++
      aggFlagsClaimed requestCount c2 rest

theorem aggStep_eosedCount (n : Nat) (s : AggState) (b : AggBatch) :
    (aggStep n s b).eosedCount = if b.eosed then s.eosedCount + 1 else s.eosedCount := by
  simp only [aggStep]
  repeat' split
  all_goals rfl

theorem aggStep_emissions (n : Nat) (s : AggState) (b : AggBatch) :
    (aggStep n s b).emissions =
      s.emissions ++
        (if n / 2 ≤ (if b.eosed then s.eosedCount + 1 else s.eosedCount) then
          [((aggStep n s b).events, decide (n ≤ (if b.eosed then s.eosedCount + 1 else s.eosedCount)))]
        else []) := by
  simp only [aggStep]
  repeat' split
  all_goals simp

theorem aggRun_flags_aux (n : Nat) (tr : List AggBatch) (s : AggState) :
    ((tr.foldl (aggStep n) s).emissions.map (fun em => em.2)) =
      s.emissions.map (fun em => em.2) ++ aggFlagsClaimed n s.eosedCount tr := by
  induction tr generalizing s with
  | nil => simp [aggFlagsClaimed]
  | cons b rest ih =>
    simp only [List.foldl_cons, aggFlagsClaimed]
    rw [ih (aggStep n s b), aggStep_emissions, aggStep_eosedCount]
    by_cases hc : n / 2 ≤ (if b.eosed then s.eosedCount + 1 else s.eosedCount)
    · simp [hc]
    · simp [hc]

/-- Claim C6: in `subscribeTimeline` over `requestCount` sub-requests, the
caller `onEvents` callback is invoked exactly at the inner callbacks where
the number of sub-timelines counted as eosed has reached
`floor(requestCount / 2)`, and the `eosed` argument passed to the caller
is exactly `eosedCount >= requestCount`; equivalently, each inner callback
appends one caller invocation when the (possibly just incremented) eose
count meets the quorum and none otherwise. -/
theorem subscribeTimeline_quorum_flags (requestCount : Nat) :
    (∀ tr : List AggBatch,
      (aggRun requestCount tr).emissions.map (fun em => em.2) =
        aggFlagsClaimed requestCount 0 tr) ∧
    (∀ (s : AggState) (b : AggBatch),
      (aggStep requestCount s b).emissions =
        s.emissions ++
          (if requestCount / 2 ≤ (if b.eosed then s.eosedCount + 1 else s.eosedCount) then
            [((aggStep requestCount s b).events,
              decide (requestCount ≤ (if b.eosed then s.eosedCount + 1 else s.eosedCount)))]
          else [])) := by
  constructor
  · intro tr
    have := aggRun_flags_aux requestCount tr
      { eosedCount := 0, events := [], eventIds := [], emissions := [] }
    simpa [aggRun] using this
  · exact aggStep_emissions requestCount

/-! ## Timeline store: live-event insertion (`_subscribeTimeline` onevent)

After EOSE, a live event is inserted into `timeline.refs` by a binary
search keyed by descending `created_at` with ascending id as tie-break.
The handler returns without touching an empty reference list, returns when
the probe lands on a reference with the same `(created_at, id)`, drops the
event when the computed position is past the end of the list, and
otherwise splices the new reference in at the computed position. -/

/-- The strict timeline order on references: `a` precedes `b` when `a` has
the greater `created_at`, or the same `created_at` and the smaller id. -/
def RefOrder (a b : TTimelineRef) : Prop :=
  b.2 < a.2 ∨ (a.2 = b.2 ∧ a.1 < b.1)

instance (a b : TTimelineRef) : Decidable (RefOrder a b) := by
  unfold RefOrder
  infer_instance

/-- The reference a live event would contribute. -/
def refOfEvent (evt : NEvent) : TTimelineRef := (evt.id, evt.created_at)

/-- The binary-search `while (left < right)` loop of the live-event
insertion, encoded with a fuel argument: every iteration strictly shrinks
`right - left`, so any fuel of at least `right - left` (the source loop
runs to completion) yields the loop result; `none` is the early `return`
taken when the probe finds the exact `(created_at, id)` pair. -/
def findInsertPosGo (evt : NEvent) (refs : List TTimelineRef) :
    Nat → Nat → Nat → Option Nat
  | 0, left, _ => some left
  | fuel + 1, left, right =>
    if left < right then
      let mid := (left + right) / 2
      match refs[mid]? with
      | none => some left
      | some ref =>
        if evt.created_at = ref.2 ∧ evt.id = ref.1 then none
        else if ref.2 < evt.created_at ∨ (evt.created_at = ref.2 ∧ evt.id < ref.1) then
          findInsertPosGo evt refs fuel left mid
        else
          findInsertPosGo evt refs fuel (mid + 1) right
    else some left

/-- The binary search over the whole reference list (`left = 0`,
`right = refs.length`; the fuel `refs.length` bounds `right - left`). -/
def findInsertPos (evt : NEvent) (refs : List TTimelineRef) : Option Nat :=
  findInsertPosGo evt refs refs.length 0 refs.length

/-- The live-event insertion into a cached reference list: the `onevent`
handler of `_subscribeTimeline` after EOSE. -/
def insertEventToRefs (evt : NEvent) (refs : List TTimelineRef) : List TTimelineRef :=
  if refs.length = 0 then refs
  else
    match findInsertPos evt refs with
    | none => refs
    | some left =>
      if refs.length ≤ left then refs
      else refs.take left ++ [refOfEvent evt] ++ refs.drop left

/-- The EOSE finalization that creates a timeline cache when none existed:
`events.sort((a, b) => b.created_at - a.created_at).slice(0, limit)`
mapped to `[evt.id, evt.created_at]` references. -/
def finalizeTimelineRefs (events : List NEvent) (limit : Nat) : List TTimelineRef :=
  ((sortEventsDesc events).take limit).map (fun e => (e.id, e.created_at))

theorem refOrder_irrefl (a : TTimelineRef) : ¬ RefOrder a a := by
  simp [RefOrder]

theorem refOrder_asymm (a b : TTimelineRef) (h1 : RefOrder a b) (h2 : RefOrder b a) : False := by
  rcases h1 with h1 | ⟨h1, h1b⟩ <;> rcases h2 with h2 | ⟨h2, h2b⟩
  · omega
  · omega
  · omega
  · exact absurd (h1b.trans h2b) (lt_irrefl a.1)

theorem refOrder_trans (a b c : TTimelineRef) (h1 : RefOrder a b) (h2 : RefOrder b c) :
    RefOrder a c := by
  rcases h1 with h1 | ⟨h1, h1b⟩ <;> rcases h2 with h2 | ⟨h2, h2b⟩
  · exact Or.inl (by omega)
  · exact Or.inl (by omega)
  · exact Or.inl (by omega)
  · exact Or.inr ⟨by omega, h1b.trans h2b⟩

theorem refOrder_trichotomy (a b : TTimelineRef) (h : a ≠ b) : RefOrder a b ∨ RefOrder b a := by
  rcases lt_trichotomy a.2 b.2 with h2 | h2 | h2
  · exact Or.inr (Or.inl h2)
  · rcases lt_trichotomy a.1 b.1 with h1 | h1 | h1
    · exact Or.inl (Or.inr ⟨h2, h1⟩)
    · exact absurd (Prod.ext_iff.mpr ⟨h1, h2⟩) h
    · exact Or.inr (Or.inr ⟨h2.symm, h1⟩)
  · exact Or.inl (Or.inl h2)

theorem refEq_iff (evt : NEvent) (ref : TTimelineRef) :
    (evt.created_at = ref.2 ∧ evt.id = ref.1) ↔ refOfEvent evt = ref := by
  rw [Prod.ext_iff]
  unfold refOfEvent
  tauto

theorem findInsertPosGo_some (evt : NEvent) (refs : List TTimelineRef)
    (hsorted : refs.Pairwise RefOrder) :
    ∀ (fuel left right pos : Nat), right ≤ refs.length → right - left ≤ fuel → left ≤ right →
    (∀ i (h : i < refs.length), i < left → RefOrder refs[i] (refOfEvent evt)) →
    (∀ i (h : i < refs.length), right ≤ i → RefOrder (refOfEvent evt) refs[i]) →
    findInsertPosGo evt refs fuel left right = some pos →
    left ≤ pos ∧ pos ≤ right ∧
    (∀ i (h : i < refs.length), i < pos → RefOrder refs[i] (refOfEvent evt)) ∧
    (∀ i (h : i < refs.length), pos ≤ i → RefOrder (refOfEvent evt) refs[i]) := by
  have hpair : ∀ (i j : Nat) (hi : i < refs.length) (hj : j < refs.length), i < j →
      RefOrder refs[i] refs[j] :=
    fun i j hi hj hij => List.pairwise_iff_getElem.mp hsorted i j hi hj hij
  intro fuel
  induction fuel with
  | zero =>
    intro left right pos hler hfuel hlr hl hr hres
    have hleq : left = right := by omega
    simp only [findInsertPosGo] at hres
    have hpos : left = pos := by
      injection hres
    subst hpos
    exact ⟨le_refl _, by omega, fun i h hi => hl i h hi, fun i h hi => hr i h (by omega)⟩
  | succ fuel ih =>
    intro left right pos hler hfuel hlr hl hr hres
    simp only [findInsertPosGo] at hres
    by_cases hcase : left < right
    · rw [if_pos hcase] at hres
      have hmidlt : (left + right) / 2 < right := by omega
      have hmidge : left ≤ (left + right) / 2 := by omega
      have hmidlen : (left + right) / 2 < refs.length := by omega
      rw [List.getElem?_eq_getElem hmidlen] at hres
      simp only [] at hres
      by_cases heq : evt.created_at = (refs[(left + right) / 2]).2 ∧
          evt.id = (refs[(left + right) / 2]).1
      · rw [if_pos heq] at hres
        exact absurd hres (by simp)
      · rw [if_neg heq] at hres
        by_cases hbefore : (refs[(left + right) / 2]).2 < evt.created_at ∨
            (evt.created_at = (refs[(left + right) / 2]).2 ∧ evt.id < (refs[(left + right) / 2]).1)
        · rw [if_pos hbefore] at hres
          have hE : RefOrder (refOfEvent evt) refs[(left + right) / 2] := hbefore
          have hr2 : ∀ i (h : i < refs.length), (left + right) / 2 ≤ i →
              RefOrder (refOfEvent evt) refs[i] := by
            intro i h hi
            rcases Nat.eq_or_lt_of_le hi with hi2 | hi2
            · subst hi2
              exact hE
            · exact refOrder_trans _ _ _ hE (hpair _ _ (by omega) h hi2)
          obtain ⟨hp1, hp2, hp3, hp4⟩ :=
            ih left ((left + right) / 2) pos (by omega) (by omega) (by omega) hl hr2 hres
          exact ⟨hp1, by omega, hp3, hp4⟩
        · rw [if_neg hbefore] at hres
          have hne : refOfEvent evt ≠ refs[(left + right) / 2] := by
            intro hcontra
            exact heq ((refEq_iff evt refs[(left + right) / 2]).mpr hcontra)
          have hM : RefOrder refs[(left + right) / 2] (refOfEvent evt) := by
            rcases refOrder_trichotomy _ _ hne with hx | hx
            · exact absurd hx hbefore
            · exact hx
          have hl2 : ∀ i (h : i < refs.length), i < (left + right) / 2 + 1 →
              RefOrder refs[i] (refOfEvent evt) := by
            intro i h hi
            rcases Nat.lt_or_ge i left with hi2 | hi2
            · exact hl i h hi2
            · rcases Nat.eq_or_lt_of_le (Nat.le_of_lt_succ hi) with hi3 | hi3
              · subst hi3
                exact hM
              · exact refOrder_trans _ _ _ (hpair _ _ h hmidlen hi3) hM
          obtain ⟨hp1, hp2, hp3, hp4⟩ :=
            ih ((left + right) / 2 + 1) right pos (by omega) (by omega) (by omega) hl2 hr hres
          exact ⟨by omega, hp2, hp3, hp4⟩
    · rw [if_neg hcase] at hres
      have hleq : left = right := by omega
      have hpos : left = pos := by
        injection hres
      subst hpos
      exact ⟨le_refl _, by omega, fun i h hi => hl i h hi, fun i h hi => hr i h (by omega)⟩

theorem findInsertPosGo_present (evt : NEvent) (refs : List TTimelineRef)
    (hsorted : refs.Pairwise RefOrder) :
    ∀ (fuel left right p : Nat) (hp : p < refs.length), right ≤ refs.length →
    right - left ≤ fuel → refs[p] = refOfEvent evt → left ≤ p → p < right →
    findInsertPosGo evt refs fuel left right = none := by
  have hpair : ∀ (i j : Nat) (hi : i < refs.length) (hj : j < refs.length), i < j →
      RefOrder refs[i] refs[j] :=
    fun i j hi hj hij => List.pairwise_iff_getElem.mp hsorted i j hi hj hij
  intro fuel
  induction fuel with
  | zero =>
    intro left right p hp hler hfuel hpe hlp hpr
    omega
  | succ fuel ih =>
    intro left right p hp hler hfuel hpe hlp hpr
    have hcase : left < right := by omega
    simp only [findInsertPosGo]
    rw [if_pos hcase]
    have hmidlt : (left + right) / 2 < right := by omega
    have hmidge : left ≤ (left + right) / 2 := by omega
    have hmidlen : (left + right) / 2 < refs.length := by omega
    rw [List.getElem?_eq_getElem hmidlen]
    simp only []
    by_cases heq : evt.created_at = (refs[(left + right) / 2]).2 ∧
        evt.id = (refs[(left + right) / 2]).1
    · rw [if_pos heq]
    · rw [if_neg heq]
      have hne : refOfEvent evt ≠ refs[(left + right) / 2] := by
        intro hcontra
        exact heq ((refEq_iff evt refs[(left + right) / 2]).mpr hcontra)
      have hpne : p ≠ (left + right) / 2 := by
        intro hcontra
        subst hcontra
        exact hne hpe.symm
      by_cases hbefore : (refs[(left + right) / 2]).2 < evt.created_at ∨
          (evt.created_at = (refs[(left + right) / 2]).2 ∧ evt.id < (refs[(left + right) / 2]).1)
      · rw [if_pos hbefore]
        have hE : RefOrder (refOfEvent evt) refs[(left + right) / 2] := hbefore
        have hplt : p < (left + right) / 2 := by
          rcases Nat.lt_or_ge p ((left + right) / 2) with hx | hx
          · exact hx
          · exfalso
            have hgt : (left + right) / 2 < p := by omega
            have := hpair _ _ hmidlen hp hgt
            rw [hpe] at this
            exact refOrder_asymm _ _ hE this
        exact ih left ((left + right) / 2) p hp (by omega) (by omega) hpe hlp hplt
      · rw [if_neg hbefore]
        have hM : RefOrder refs[(left + right) / 2] (refOfEvent evt) := by
          rcases refOrder_trichotomy _ _ hne with hx | hx
          · exact absurd hx hbefore
          · exact hx
        have hpgt : (left + right) / 2 < p := by
          rcases Nat.lt_or_ge ((left + right) / 2) p with hx | hx
          · exact hx
          · exfalso
            have hlt : p < (left + right) / 2 := by omega
            have := hpair _ _ hp hmidlen hlt
            rw [hpe] at this
            exact refOrder_asymm _ _ this hM
        exact ih ((left + right) / 2 + 1) right p hp (by omega) (by omega) hpe (by omega) hpr

theorem findInsertPosGo_tooOld (evt : NEvent) (refs : List TTimelineRef)
    (hold : ∀ r ∈ refs, evt.created_at < r.2) :
    ∀ (fuel left right : Nat), right ≤ refs.length → right - left ≤ fuel → left ≤ right →
    findInsertPosGo evt refs fuel left right = some right := by
  intro fuel
  induction fuel with
  | zero =>
    intro left right hler hfuel hlr
    have : left = right := by omega
    subst this
    simp [findInsertPosGo]
  | succ fuel ih =>
    intro left right hler hfuel hlr
    simp only [findInsertPosGo]
    by_cases hcase : left < right
    · rw [if_pos hcase]
      have hmidlt : (left + right) / 2 < right := by omega
      have hmidge : left ≤ (left + right) / 2 := by omega
      have hmidlen : (left + right) / 2 < refs.length := by omega
      rw [List.getElem?_eq_getElem hmidlen]
      simp only []
      have hmem : refs[(left + right) / 2] ∈ refs := List.getElem_mem hmidlen
      have holdm := hold _ hmem
      have heq : ¬ (evt.created_at = (refs[(left + right) / 2]).2 ∧
          evt.id = (refs[(left + right) / 2]).1) := by
        intro hcontra
        omega
      rw [if_neg heq]
      have hbefore : ¬ ((refs[(left + right) / 2]).2 < evt.created_at ∨
          (evt.created_at = (refs[(left + right) / 2]).2 ∧
            evt.id < (refs[(left + right) / 2]).1)) := by
        intro hcontra
        rcases hcontra with hx | ⟨hx, _⟩ <;> omega
      rw [if_neg hbefore]
      exact ih ((left + right) / 2 + 1) right (by omega) (by omega) (by omega)
    · rw [if_neg hcase]
      have : left = right := by omega
      subst this
      rfl

theorem pairwise_insert_at (refs : List TTimelineRef) (e : TTimelineRef) (pos : Nat)
    (hsorted : refs.Pairwise RefOrder) (hpos : pos ≤ refs.length)
    (hl : ∀ i (h : i < refs.length), i < pos → RefOrder refs[i] e)
    (hr : ∀ i (h : i < refs.length), pos ≤ i → RefOrder e refs[i]) :
    (refs.take pos ++ [e] ++ refs.drop pos).Pairwise RefOrder := by
  have htake : ∀ a ∈ refs.take pos, RefOrder a e := by
    intro a ha
    obtain ⟨i, hi, hget⟩ := List.mem_iff_getElem.mp ha
    have hilen : i < refs.length := by
      have := List.length_take_le pos refs
      omega
    have hipos : i < pos := by
      rw [List.length_take] at hi
      omega
    have : (refs.take pos)[i] = refs[i] := List.getElem_take refs
    rw [this] at hget
    rw [← hget]
    exact hl i hilen hipos
  have hdrop : ∀ b ∈ refs.drop pos, RefOrder e b := by
    intro b hb
    obtain ⟨i, hi, hget⟩ := List.mem_iff_getElem.mp hb
    have hilen : pos + i < refs.length := by
      rw [List.length_drop] at hi
      omega
    have : (refs.drop pos)[i] = refs[pos + i] := List.getElem_drop refs
    rw [this] at hget
    rw [← hget]
    exact hr (pos + i) hilen (by omega)
  rw [List.append_assoc, List.singleton_append, List.pairwise_append]
  refine ⟨hsorted.sublist (List.take_sublist pos refs), ?_, ?_⟩
  · rw [List.pairwise_cons]
    exact ⟨hdrop, hsorted.sublist (List.drop_sublist pos refs)⟩
  · intro a ha b hb
    rcases List.mem_cons.mp hb with hb | hb
    · rw [hb]
      exact htake a ha
    · exact refOrder_trans _ _ _ (htake a ha) (hdrop b hb)

/-- Claim C4, counterexample: the claimed invariant does not hold at all
times. A timeline initialized at EOSE from two events with equal
`created_at` that arrived in descending-id order caches the references in
arrival order, so the list is not strictly sorted with ties ascending by
id (the stable sort only orders by `created_at`). -/
theorem timelineRefs_tie_order_counterexample :
    finalizeTimelineRefs
        [{ id := "b", pubkey := "p", created_at := 100, kind := 1, tags := [], content := "" },
         { id := "a", pubkey := "p", created_at := 100, kind := 1, tags := [], content := "" }]
        10 =
      [("b", 100), ("a", 100)] ∧
    ¬ ([("b", 100), ("a", 100)] : List TTimelineRef).Pairwise RefOrder := by
  constructor
  · rfl
  · intro h
    have := (List.pairwise_cons.mp h).1 ("a", 100) (by simp)
    rcases this with hx | ⟨_, hx⟩
    · omega
    · refine absurd hx ?_
      rw [String.lt_iff_toList_lt]
      decide

/-- Claim C4 (amended): on a reference list that is strictly sorted
descending by `created_at` with ties ascending by id (which initialization
guarantees only up to tie order), the binary-search live-event insertion
preserves that strict order; inserting an event whose `(created_at, id)`
pair is already present is a no-op leaving the list unchanged; inserting
an event strictly older than every cached reference never grows the list;
and when every cached reference carrying the event id also carries its
`created_at`, the insertion preserves freedom from duplicate ids. -/
theorem insertEvent_sorted_behavior (evt : NEvent) (refs : List TTimelineRef)
    (hsorted : refs.Pairwise RefOrder) :
    ((refOfEvent evt ∈ refs) → insertEventToRefs evt refs = refs) ∧
    ((∀ r ∈ refs, evt.created_at < r.2) → insertEventToRefs evt refs = refs) ∧
    (insertEventToRefs evt refs).Pairwise RefOrder ∧
    ((∀ r ∈ refs, r.1 = evt.id → r.2 = evt.created_at) →
      (refs.map Prod.fst).Nodup → ((insertEventToRefs evt refs).map Prod.fst).Nodup) := by
  by_cases hnil : refs.length = 0
  · refine ⟨fun _ => by simp [insertEventToRefs, hnil], fun _ => by simp [insertEventToRefs, hnil],
      ?_, fun _ h => by simpa [insertEventToRefs, hnil] using h⟩
    simp only [insertEventToRefs, hnil, if_pos]
    exact hsorted
  · have hmain : ∀ pos, findInsertPos evt refs = some pos → pos < refs.length →
        insertEventToRefs evt refs = refs.take pos ++ [refOfEvent evt] ++ refs.drop pos := by
      intro pos hpos hlt
      simp only [insertEventToRefs, hnil, hpos]
      rw [if_neg (show ¬ refs.length ≤ pos from by omega)]
      try simp
    refine ⟨?_, ?_, ?_, ?_⟩
    · intro hmem
      obtain ⟨p, hp, hget⟩ := List.mem_iff_getElem.mp hmem
      have hnone : findInsertPos evt refs = none :=
        findInsertPosGo_present evt refs hsorted refs.length 0 refs.length p hp
          (le_refl _) (by omega) hget (by omega) hp
      simp [insertEventToRefs, hnil, hnone]
    · intro hold
      have hsome : findInsertPos evt refs = some refs.length :=
        findInsertPosGo_tooOld evt refs hold refs.length 0 refs.length
          (le_refl _) (by omega) (by omega)
      simp [insertEventToRefs, hnil, hsome]
    · cases hres : findInsertPos evt refs with
      | none =>
        simpa [insertEventToRefs, hnil, hres] using hsorted
      | some pos =>
        by_cases hlt : pos < refs.length
        · rw [hmain pos hres hlt]
          obtain ⟨_, hple, hleft, hright⟩ :=
            findInsertPosGo_some evt refs hsorted refs.length 0 refs.length pos
              (le_refl _) (by omega) (by omega)
              (fun i h hi => absurd hi (by omega))
              (fun i h hi => absurd h (by omega)) hres
          exact pairwise_insert_at refs (refOfEvent evt) pos hsorted (by omega) hleft hright
        · simpa [insertEventToRefs, hnil, hres, if_pos (by omega : refs.length ≤ pos)]
            using hsorted
    · intro hid hnodup
      cases hres : findInsertPos evt refs with
      | none =>
        simpa [insertEventToRefs, hnil, hres] using hnodup
      | some pos =>
        by_cases hlt : pos < refs.length
        · rw [hmain pos hres hlt]
          have hnotmem : refOfEvent evt ∉ refs := by
            intro hmem
            obtain ⟨p, hp, hget⟩ := List.mem_iff_getElem.mp hmem
            have hnone : findInsertPos evt refs = none :=
              findInsertPosGo_present evt refs hsorted refs.length 0 refs.length p hp
                (le_refl _) (by omega) hget (by omega) hp
            rw [hres] at hnone
            exact absurd hnone (by simp)
          have hidnotmem : evt.id ∉ refs.map Prod.fst := by
            intro hmem
            obtain ⟨r, hr, hfst⟩ := List.mem_map.mp hmem
            have heq : r = refOfEvent evt := by
              have := hid r hr hfst
              exact Prod.ext_iff.mpr ⟨hfst, this⟩
            rw [heq] at hr
            exact hnotmem hr
          rw [List.append_assoc, List.singleton_append, List.map_append, List.map_cons]
          rw [List.nodup_middle, List.nodup_cons]
          rw [← List.map_append, List.take_append_drop]
          exact ⟨hidnotmem, hnodup⟩
        · simpa [insertEventToRefs, hnil, hres, if_pos (by omega : refs.length ≤ pos)]
            using hnodup

theorem insertEvent_sorted_behavior_witness :
    (insertEventToRefs
        { id := "b", pubkey := "p", created_at := 100, kind := 1, tags := [], content := "" }
        [("b", 100), ("c", 90)] = [("b", 100), ("c", 90)]) ∧
    (insertEventToRefs
        { id := "z", pubkey := "p", created_at := 50, kind := 1, tags := [], content := "" }
        [("b", 100), ("c", 90)] = [("b", 100), ("c", 90)]) ∧
    (insertEventToRefs
        { id := "a", pubkey := "p", created_at := 95, kind := 1, tags := [], content := "" }
        [("b", 100), ("c", 90)]).Pairwise RefOrder := by
  refine ⟨?_, ?_, ?_⟩
  · exact (insertEvent_sorted_behavior _ [("b", 100), ("c", 90)] (by decide)).1 (by decide)
  · exact (insertEvent_sorted_behavior _ [("b", 100), ("c", 90)] (by decide)).2.1 (by decide)
  · exact (insertEvent_sorted_behavior _ [("b", 100), ("c", 90)] (by decide)).2.2.1

/-! ## Timeline store: load-more (`_loadMoreTimeline`)

`_loadMoreTimeline(key, until, limit)` serves cached references starting
at the first one with `createdAt <= until` (resolved through the event
cache, unresolvable references dropped), returns them if they fill the
limit, and otherwise queries the network with the cursor advanced to one
second before the last cached result (or the original `until` when
nothing was cached) and the remaining limit, sorts the network events
descending, caps them, and returns cached plus network events. The
`timeline.refs.push` bookkeeping does not affect the returned list. -/

/-- `refs.findIndex(([, createdAt]) => createdAt <= until)`, as an optional
index. -/
def findFirstLeIdx (until_ : Int) : List TTimelineRef → Option Nat
  | [] => none
  | r :: tl => if r.2 ≤ until_ then some 0 else (findFirstLeIdx until_ tl).map (· + 1)

/-- The cached portion served first by `_loadMoreTimeline`:
`refs.slice(startIdx, startIdx + limit)` resolved through the event cache,
with unresolvable references dropped. -/
def loadMoreCachedEvents (cache : String → Option NEvent) (refs : List TTimelineRef)
    (until_ : Int) (limit : Nat) : List NEvent :=
  match findFirstLeIdx until_ refs with
  | none => []
  | some startIdx => ((refs.drop startIdx).take limit).filterMap (fun r => cache r.1)

/-- `_loadMoreTimeline` restricted to one timeline: `cache` models the
`eventDataLoader` resolution of a reference id, and `net until limit`
models `query(urls, { ...filter, until, limit })`. -/
def loadMoreTimelineModel (cache : String → Option NEvent) (net : Int → Nat → List NEvent)
    (refs : List TTimelineRef) (until_ : Int) (limit : Nat) : List NEvent :=
  let cachedEvents : List NEvent := loadMoreCachedEvents cache refs until_ limit
  if limit ≤ cachedEvents.length then cachedEvents
  else
    let until2 : Int :=
      match cachedEvents.getLast? with
      | some e => e.created_at - 1
      | none => until_
    let limit2 := limit - cachedEvents.length
    let events := (sortEventsDesc (net until2 limit2)).take limit2
    cachedEvents ++ events

theorem findFirstLeIdx_drop_bound (until_ : Int) (refs : List TTimelineRef)
    (hsorted : refs.Pairwise (fun a b => b.2 ≤ a.2)) (s : Nat)
    (hfind : findFirstLeIdx until_ refs = some s) :
    ∀ r ∈ refs.drop s, r.2 ≤ until_ := by
  induction refs generalizing s with
  | nil => simp [findFirstLeIdx] at hfind
  | cons a tl ih =>
    rw [findFirstLeIdx] at hfind
    by_cases ha : a.2 ≤ until_
    · rw [if_pos ha] at hfind
      have hs : s = 0 := by
        injection hfind with h
        omega
      subst hs
      intro r hr
      rcases List.mem_cons.mp hr with hr | hr
      · rw [hr]
        exact ha
      · have := (List.pairwise_cons.mp hsorted).1 r hr
        omega
    · rw [if_neg ha] at hfind
      obtain ⟨s2, hs2, hsum⟩ := Option.map_eq_some'.mp hfind
      have hdrop : (a :: tl).drop s = tl.drop s2 := by
        rw [← hsum]
        rfl
      rw [hdrop]
      exact ih (List.pairwise_cons.mp hsorted).2 s2 hs2

/-- Claim C5, counterexample: a cached reference with `created_at` exactly
equal to the cursor `until = 50` is served by load-more, because the cache
scan uses `createdAt <= until`; the returned event has
`created_at >= until`, which the claim forbids. -/
theorem loadMore_returns_event_at_until :
    loadMoreTimelineModel
        (fun i => if i = "aa"
          then some { id := "aa", pubkey := "p", created_at := 50, kind := 1, tags := [],
                      content := "" }
          else none)
        (fun _ _ => []) [("aa", 50)] 50 1 =
      [{ id := "aa", pubkey := "p", created_at := 50, kind := 1, tags := [], content := "" }] ∧
    ({ id := "aa", pubkey := "p", created_at := 50, kind := 1, tags := [],
       content := "" } : NEvent).created_at = 50 := by
  exact ⟨rfl, rfl⟩

/-- Claim C5 (amended): when the timeline references are sorted descending
by `created_at`, the event cache resolves each reference to an event with
the created_at recorded in the reference, and the network honours the
`until` bound of the filter it is sent (events no newer than the cursor),
every event returned by `_loadMoreTimeline` with cursor `until = T` has
`created_at <= T`: the cached references served are those with
`created_at <= T`, and the network remainder is fetched with a cursor no
newer than `T` (strictly older than the last cached result when one
exists), so nothing strictly newer than `T` is ever returned: the bound
is inclusive, not the strict `created_at < T` of the original claim. -/
theorem loadMoreTimeline_until_bound (cache : String → Option NEvent)
    (net : Int → Nat → List NEvent) (refs : List TTimelineRef) (until_ : Int) (limit : Nat)
    (hsorted : refs.Pairwise (fun a b => b.2 ≤ a.2))
    (hcache : ∀ r ∈ refs, ∀ e, cache r.1 = some e → e.created_at = r.2)
    (hnet : ∀ u l, ∀ e ∈ net u l, e.created_at ≤ u) :
    ∀ e ∈ loadMoreTimelineModel cache net refs until_ limit, e.created_at ≤ until_ := by
  intro e he
  simp only [loadMoreTimelineModel] at he
  have hcached : ∀ x ∈ loadMoreCachedEvents cache refs until_ limit, x.created_at ≤ until_ := by
    intro x hx
    rw [loadMoreCachedEvents] at hx
    cases hfind : findFirstLeIdx until_ refs with
    | none =>
      rw [hfind] at hx
      simp at hx
    | some startIdx =>
      rw [hfind] at hx
      obtain ⟨r, hr, hcr⟩ := List.mem_filterMap.mp hx
      have hrdrop : r ∈ refs.drop startIdx := List.mem_of_mem_take hr
      have hrrefs : r ∈ refs := List.mem_of_mem_drop hrdrop
      have hble := findFirstLeIdx_drop_bound until_ refs hsorted startIdx hfind r hrdrop
      have := hcache r hrrefs x hcr
      omega
  by_cases hfull : limit ≤ (loadMoreCachedEvents cache refs until_ limit).length
  · rw [if_pos hfull] at he
    exact hcached e he
  · rw [if_neg hfull] at he
    rcases List.mem_append.mp he with he | he
    · exact hcached e he
    · have hmem := List.mem_of_mem_take he
      rw [mem_sortEventsDesc] at hmem
      have hbound := hnet _ _ _ hmem
      cases hlast : (loadMoreCachedEvents cache refs until_ limit).getLast? with
      | none =>
        rw [hlast] at hbound
        exact hbound
      | some x =>
        rw [hlast] at hbound
        have hb2 : e.created_at ≤ x.created_at - 1 := hbound
        have hxmem := List.mem_of_mem_getLast? hlast
        have hxle := hcached x hxmem
        omega

theorem loadMoreTimeline_until_bound_witness :
    ({ id := "aa", pubkey := "p", created_at := 50, kind := 1, tags := [],
       content := "" } : NEvent).created_at ≤ 60 := by
  refine loadMoreTimeline_until_bound
    (fun i => if i = "aa"
      then some { id := "aa", pubkey := "p", created_at := 50, kind := 1, tags := [],
                  content := "" }
      else none)
    (fun _ _ => []) [("aa", 50)] 60 1 (by decide) ?_ (by simp) _ (by decide)
  intro r hr e hee
  simp only [List.mem_singleton] at hr
  subst hr
  simp only [if_pos rfl] at hee
  injection hee with hee
  rw [← hee]

/-! ## Replaceable event cache (`addEventToCache`)

`addEventToCache` primes the id-keyed event loader and, for replaceable
kinds, stores the event under its coordinate in `replaceableEventCacheMap`
only when no event is cached there or the new event compares newer. The
helpers `isReplaceableEvent`, `getReplaceableCoordinateFromEvent` and
`compareEvents` live in `@/lib/event`, which is not part of the provided
sources; they are modelled from the specification. -/

/-- Modelled from the spec: `isReplaceableEvent` of `@/lib/event` is not in
the provided sources. The spec defines replaceable kinds as profile
metadata (0), follow lists (3), relay lists and the other replaceable
kinds (10000 to 19999), and parameterized-replaceable kinds carrying a
`d` tag (30000 to 39999). -/
def isReplaceableEvent (kind : Int) : Bool :=
  kind == 0 || kind == 3 || (10000 ≤ kind && kind < 20000) || (30000 ≤ kind && kind < 40000)

/-- The first `d`-tag value of an event (empty when absent). -/
def getDTagValue (e : NEvent) : String :=
  match e.tags.find? (fun t => t.head? == some "d") with
  | some t => t.getD 1 ""
  | none => ""

/-- Modelled from the spec: the coordinate string of `@/lib/event`,
`kind:pubkey:d` with the `d` tag only for parameterized-replaceable
kinds. -/
def getReplaceableCoordinate (kind : Int) (pubkey : String) (d : String) : String :=
  toString kind ++ ":" ++ pubkey ++ ":" ++ d

/-- Modelled from the spec: the coordinate of a replaceable event. -/
def getReplaceableCoordinateFromEvent (e : NEvent) : String :=
  getReplaceableCoordinate e.kind e.pubkey
    (if 30000 ≤ e.kind ∧ e.kind < 40000 then getDTagValue e else "")

/-- Modelled from the spec: `compareEvents` of `@/lib/event` is not in the
provided sources. The spec retains the highest `created_at` per
coordinate, with ties broken by id per the ordering rule; the result is
positive when the first event is the newer one. -/
def compareEvents (a b : NEvent) : Int :=
  if b.created_at < a.created_at then 1
  else if a.created_at < b.created_at then -1
  else if a.id < b.id then 1
  else if b.id < a.id then -1
  else 0

/-- The replaceable-event part of the cache state: coordinate to newest
known event. -/
def ReplCache := String → Option NEvent

/-- The replaceable branch of `addEventToCache`. -/
def addEventToCacheRepl (m : ReplCache) (e : NEvent) : ReplCache :=
  if isReplaceableEvent e.kind then
    let c := getReplaceableCoordinateFromEvent e
    match m c with
    | none => fun k => if k = c then some e else m k
    | some cached =>
      if 0 < compareEvents e cached then (fun k => if k = c then some e else m k) else m
  else m

theorem addEventToCacheRepl_fresh (m : ReplCache) (e : NEvent)
    (hrep : isReplaceableEvent e.kind = true)
    (hm : m (getReplaceableCoordinateFromEvent e) = none) :
    addEventToCacheRepl m e =
      fun k => if k = getReplaceableCoordinateFromEvent e then some e else m k := by
  unfold addEventToCacheRepl
  rw [hrep]
  simp only [if_pos]
  rw [hm]

theorem addEventToCacheRepl_newer (m : ReplCache) (e cached : NEvent)
    (hrep : isReplaceableEvent e.kind = true)
    (hm : m (getReplaceableCoordinateFromEvent e) = some cached)
    (hcmp : 0 < compareEvents e cached) :
    addEventToCacheRepl m e =
      fun k => if k = getReplaceableCoordinateFromEvent e then some e else m k := by
  unfold addEventToCacheRepl
  rw [hrep]
  simp only [if_pos]
  rw [hm]
  simp only [if_pos hcmp]

theorem addEventToCacheRepl_older (m : ReplCache) (e cached : NEvent)
    (hrep : isReplaceableEvent e.kind = true)
    (hm : m (getReplaceableCoordinateFromEvent e) = some cached)
    (hcmp : ¬ 0 < compareEvents e cached) :
    addEventToCacheRepl m e = m := by
  unfold addEventToCacheRepl
  rw [hrep]
  simp only [if_pos]
  rw [hm]
  simp only [if_neg hcmp]

/-- Claim C7: two events with the same replaceable coordinate and
different `created_at`, passed to `addEventToCache` in either order over a
cache with no entry at that coordinate, leave exactly the newer event
(the greater `created_at`) cached at the coordinate. -/
theorem addEventToCache_newest_wins (m : ReplCache) (a b : NEvent)
    (hkind : a.kind = b.kind) (hpub : a.pubkey = b.pubkey)
    (hd : getDTagValue a = getDTagValue b)
    (hrep : isReplaceableEvent a.kind = true)
    (hlt : a.created_at < b.created_at)
    (hnone : m (getReplaceableCoordinateFromEvent a) = none) :
    addEventToCacheRepl (addEventToCacheRepl m a) b (getReplaceableCoordinateFromEvent a) =
      some b ∧
    addEventToCacheRepl (addEventToCacheRepl m b) a (getReplaceableCoordinateFromEvent a) =
      some b := by
  have hcoord : getReplaceableCoordinateFromEvent a = getReplaceableCoordinateFromEvent b := by
    unfold getReplaceableCoordinateFromEvent
    rw [hkind, hpub, hd]
  have hrepb : isReplaceableEvent b.kind = true := by
    rw [← hkind]
    exact hrep
  have hcmpba : 0 < compareEvents b a := by
    unfold compareEvents
    rw [if_pos hlt]
    omega
  have hcmpab : ¬ 0 < compareEvents a b := by
    unfold compareEvents
    rw [if_neg (by omega), if_pos hlt]
    omega
  constructor
  · rw [addEventToCacheRepl_fresh m a hrep hnone]
    rw [addEventToCacheRepl_newer _ b a hrepb (by rw [← hcoord]; simp) hcmpba]
    rw [← hcoord]
    simp
  · rw [addEventToCacheRepl_fresh m b hrepb (by rw [← hcoord]; exact hnone)]
    rw [addEventToCacheRepl_older _ a b hrep (by rw [hcoord]; simp) hcmpab]
    rw [← hcoord]
    simp

theorem addEventToCache_newest_wins_witness :
    (addEventToCacheRepl
        (addEventToCacheRepl (fun _ => none)
          { id := "x", pubkey := "p", created_at := 10, kind := 0, tags := [], content := "old" })
        { id := "y", pubkey := "p", created_at := 20, kind := 0, tags := [], content := "new" })
      (getReplaceableCoordinateFromEvent
        { id := "x", pubkey := "p", created_at := 10, kind := 0, tags := [], content := "old" }) =
      some { id := "y", pubkey := "p", created_at := 20, kind := 0, tags := [], content := "new" } :=
  (addEventToCache_newest_wins (fun _ => none)
    { id := "x", pubkey := "p", created_at := 10, kind := 0, tags := [], content := "old" }
    { id := "y", pubkey := "p", created_at := 20, kind := 0, tags := [], content := "new" }
    rfl rfl rfl (by decide) (by decide) rfl).1

/-! ## Timeline key generation (`generateTimelineKey`)

`generateTimelineKey(urls, filter)` builds `stableFilter` by walking
`Object.entries(filter).sort()` and, for each entry, first assigning a
sorted copy of array values and then unconditionally assigning the
original value (the second assignment overwrites the first), then
serializes `{ urls: [...urls].sort(), filter: stableFilter }` with
`JSON.stringify` and hashes it with SHA-256. The model returns the
serialized pair itself: the serialization of distinct pairs of this value
space is distinct, and equal pairs hash to equal keys, so key equality in
the source corresponds to pair equality here (up to hash collisions). -/

/-- A JSON value appearing in a subscription filter: numbers (`limit`,
`since`, `until`), strings (`search`), string arrays (`ids`, `authors`,
tag queries) and number arrays (`kinds`). -/
inductive TFilterValue where
  | num (n : Int)
  | str (s : String)
  | arr (l : List String)
  | arrN (l : List Int)
deriving DecidableEq, Repr

def isArrayValue : TFilterValue → Bool
  | .arr _ => true
  | .arrN _ => true
  | _ => false

/-- `[...value].sort()`: the platform default sort compares elements as
strings. -/
def sortFilterValue : TFilterValue → TFilterValue
  | .arr l => .arr (stableSort (fun a b => decide (a ≤ b)) l)
  | .arrN l => .arrN (stableSort (fun a b => decide (toString a ≤ toString b)) l)
  | v => v

/-- The string the platform uses when default-sorting an entries array:
`[key, value].toString()`. -/
def entryToString (kv : String × TFilterValue) : String :=
  kv.1 ++ "," ++
    (match kv.2 with
     | .num n => toString n
     | .str s => s
     | .arr l => String.intercalate "," l
     | .arrN l => String.intercalate "," (l.map toString))

/-- `stableFilter[key] = value` on a platform object: a first assignment
appends the key, a later assignment updates in place. -/
def jsSetKey (m : List (String × TFilterValue)) (k : String) (v : TFilterValue) :
    List (String × TFilterValue) :=
  if m.any (fun kv => kv.1 == k) then m.map (fun kv => if kv.1 == k then (k, v) else kv)
  else m ++ [(k, v)]

/-- The `stableFilter` construction of `generateTimelineKey`: for an array
value the sorted copy is assigned and then immediately overwritten by the
unconditional assignment of the original value. -/
def stableFilterEntries (entries : List (String × TFilterValue)) :
    List (String × TFilterValue) :=
  (stableSort (fun a b => decide (entryToString a ≤ entryToString b)) entries).foldl
    (fun m kv =>
      let m1 := if isArrayValue kv.2 then jsSetKey m kv.1 (sortFilterValue kv.2) else m
      jsSetKey m1 kv.1 kv.2)
    []

/-- The serialized content of the timeline key (the SHA-256 input):
sorted urls paired with the `stableFilter` entries. -/
def generateTimelineKeyModel (urls : List String) (entries : List (String × TFilterValue)) :
    List String × List (String × TFilterValue) :=
  (stableSort (fun a b => decide (a ≤ b)) urls, stableFilterEntries entries)

theorem insertStable_perm {α : Type} (le : α → α → Bool) (x : α) (l : List α) :
    (insertStable le x l).Perm (x :: l) := by
  induction l with
  | nil => simp [insertStable]
  | cons y ys ih =>
    simp only [insertStable]
    split
    · exact (ih.cons y).trans (List.Perm.swap x y ys)
    · exact List.Perm.refl _

theorem stableSort_perm {α : Type} (le : α → α → Bool) (l : List α) :
    (stableSort le l).Perm l := by
  have main : ∀ (l acc : List α),
      (l.foldl (fun acc x => insertStable le x acc) acc).Perm (acc ++ l) := by
    intro l
    induction l with
    | nil => simp
    | cons x xs ih =>
      intro acc
      simp only [List.foldl_cons]
      refine (ih (insertStable le x acc)).trans ?_
      refine (((insertStable_perm le x acc).append_right xs).trans ?_)
      exact List.perm_middle.symm
  simpa using main l []

theorem insertStable_pairwise {α : Type} (le : α → α → Bool)
    (htot : ∀ a b, le a b = true ∨ le b a = true)
    (htrans : ∀ a b c, le a b = true → le b c = true → le a c = true)
    (x : α) (l : List α) (h : l.Pairwise (fun a b => le a b = true)) :
    (insertStable le x l).Pairwise (fun a b => le a b = true) := by
  induction l with
  | nil => simp [insertStable]
  | cons y ys ih =>
    obtain ⟨hy, hys⟩ := List.pairwise_cons.mp h
    simp only [insertStable]
    split
    · rename_i hle
      rw [List.pairwise_cons]
      refine ⟨?_, ih hys⟩
      intro z hz
      rcases (mem_insertStable le x z ys).mp hz with hz | hz
      · rw [hz]
        exact hle
      · exact hy z hz
    · rename_i hnle
      have hxy : le x y = true := by
        rcases htot y x with hc | hc
        · exact absurd hc hnle
        · exact hc
      rw [List.pairwise_cons]
      refine ⟨?_, h⟩
      intro z hz
      rcases List.mem_cons.mp hz with hz | hz
      · rw [hz]
        exact hxy
      · exact htrans x y z hxy (hy z hz)

theorem stableSort_pairwise {α : Type} (le : α → α → Bool)
    (htot : ∀ a b, le a b = true ∨ le b a = true)
    (htrans : ∀ a b c, le a b = true → le b c = true → le a c = true)
    (l : List α) : (stableSort le l).Pairwise (fun a b => le a b = true) := by
  have main : ∀ (l acc : List α), acc.Pairwise (fun a b => le a b = true) →
      (l.foldl (fun acc x => insertStable le x acc) acc).Pairwise (fun a b => le a b = true) := by
    intro l
    induction l with
    | nil => exact fun acc h => h
    | cons x xs ih =>
      intro acc h
      exact ih (insertStable le x acc) (insertStable_pairwise le htot htrans x acc h)
  exact main l [] (List.Pairwise.nil)

theorem stableSort_eq_of_perm {α : Type} (le : α → α → Bool)
    (htot : ∀ a b, le a b = true ∨ le b a = true)
    (htrans : ∀ a b c, le a b = true → le b c = true → le a c = true)
    (hanti : ∀ a b, le a b = true → le b a = true → a = b)
    (l1 l2 : List α) (hperm : l1.Perm l2) : stableSort le l1 = stableSort le l2 := by
  have hp : (stableSort le l1).Perm (stableSort le l2) :=
    ((stableSort_perm le l1).trans hperm).trans (stableSort_perm le l2).symm
  exact @List.eq_of_perm_of_sorted _ _ ⟨fun a b h1 h2 => hanti a b h1 h2⟩ _ _ hp
    (stableSort_pairwise le htot htrans l1) (stableSort_pairwise le htot htrans l2)

/-- Claim C8, settled against the code: `generateTimelineKey` does sort the
relay urls, so url permutations produce the same key content; but the
sorted copy of an array-valued filter field is immediately overwritten by
the original value (`stableFilter[key] = value` runs unconditionally after
the `Array.isArray` branch), so two filters differing only in the order of
`authors` serialize differently and hash to different keys, contradicting
the claimed canonicalization. -/
theorem generateTimelineKey_not_canonical :
    (generateTimelineKeyModel ["wss://relay.damus.io/"]
        [("authors", TFilterValue.arr ["b", "a"])] ≠
      generateTimelineKeyModel ["wss://relay.damus.io/"]
        [("authors", TFilterValue.arr ["a", "b"])]) ∧
    (∀ (urls1 urls2 : List String) (entries : List (String × TFilterValue)),
      urls1.Perm urls2 →
      generateTimelineKeyModel urls1 entries = generateTimelineKeyModel urls2 entries) := by
  constructor
  · decide
  · intro urls1 urls2 entries hperm
    unfold generateTimelineKeyModel
    rw [stableSort_eq_of_perm _ ?htot ?htrans ?hanti urls1 urls2 hperm]
    case htot =>
      intro a b
      rcases le_total a b with h | h
      · exact Or.inl (by simpa using h)
      · exact Or.inr (by simpa using h)
    case htrans =>
      intro a b c h1 h2
      simp only [decide_eq_true_eq] at h1 h2 ⊢
      exact le_trans h1 h2
    case hanti =>
      intro a b h1 h2
      simp only [decide_eq_true_eq] at h1 h2
      exact le_antisymm h1 h2

theorem generateTimelineKey_not_canonical_witness :
    generateTimelineKeyModel ["wss://relay.damus.io/", "wss://nos.lol/"]
        [("kinds", TFilterValue.arrN [1])] =
      generateTimelineKeyModel ["wss://nos.lol/", "wss://relay.damus.io/"]
        [("kinds", TFilterValue.arrN [1])] :=
  (generateTimelineKey_not_canonical).2 ["wss://relay.damus.io/", "wss://nos.lol/"]
    ["wss://nos.lol/", "wss://relay.damus.io/"] [("kinds", TFilterValue.arrN [1])]
    (by decide)

/-! ## Subscription close semantics

The `close` returned by `subscribe` synchronously removes the `newEvent`
bus listener and then asks each relay sub-subscription to close through
its promise (`subPromise.then((sub) => sub.close())`), which completes
asynchronously; `subscribe` does not reset `onevent`/`oneose`. The timeline
closers of `_subscribeTimeline` and `subscribeTimeline` additionally
reassign the captured `onEvents`/`onNew` bindings to no-ops before closing
the inner subscription. The transition system below has one action per
asynchronous continuation: `relayCloseDone` is the completion of the
requested relay close. -/

/-- One `subscribe` call as seen by the close logic. -/
structure CloseSubState where
  busAttached : Bool
  relayOpen : Bool
  closeRequested : Bool
  knownIds : List String
  delivered : List NEvent
deriving DecidableEq, Repr

inductive CloseAction where
  | relayDeliver (e : NEvent)
  | busDeliver (e : NEvent)
  | close
  | relayCloseDone
deriving DecidableEq, Repr

def isRelayDeliver : CloseAction → Bool
  | .relayDeliver _ => true
  | _ => false

/-- One event of the close transition system of `subscribe`: relay
deliveries flow while the relay sub-subscription is open (`close` only
requests its asynchronous release), bus deliveries flow only while the
listener is attached (detached synchronously by `close`). -/
def closeStep (matchf : NEvent → Bool) (s : CloseSubState) : CloseAction → CloseSubState
  | .relayDeliver e =>
    if s.relayOpen then
      if s.knownIds.contains e.id then s
      else { s with knownIds := s.knownIds ++ [e.id], delivered := s.delivered ++ [e] }
    else s
  | .busDeliver e =>
    if s.busAttached then
      if !matchf e then s
      else if s.knownIds.contains e.id then s
      else { s with knownIds := s.knownIds ++ [e.id], delivered := s.delivered ++ [e] }
    else s
  | .close => { s with busAttached := false, closeRequested := true }
  | .relayCloseDone => if s.closeRequested then { s with relayOpen := false } else s

def closeRun (matchf : NEvent → Bool) (s : CloseSubState) (tr : List CloseAction) :
    CloseSubState :=
  tr.foldl (closeStep matchf) s

def closeInit : CloseSubState :=
  { busAttached := true, relayOpen := true, closeRequested := false, knownIds := [],
    delivered := [] }

/-- A timeline subscription built on `subscribe`: its closer reassigns the
caller callbacks to no-ops (`cbActive := false`) and closes the inner
subscription; events delivered by the inner subscription reach the caller
only while `cbActive` holds. -/
structure TLCloseState where
  cbActive : Bool
  inner : CloseSubState
  emitted : List NEvent
deriving DecidableEq, Repr

def tlStep (matchf : NEvent → Bool) (s : TLCloseState) : CloseAction → TLCloseState
  | .close =>
    { cbActive := false, inner := closeStep matchf s.inner .close, emitted := s.emitted }
  | a =>
    let inner2 := closeStep matchf s.inner a
    let newly := inner2.delivered.drop s.inner.delivered.length
    { cbActive := s.cbActive, inner := inner2,
      emitted := s.emitted ++ (if s.cbActive then newly else []) }

def tlRun (matchf : NEvent → Bool) (s : TLCloseState) (tr : List CloseAction) : TLCloseState :=
  tr.foldl (tlStep matchf) s

/-- Claim C9, counterexample: after `close()` on a plain `subscribe`
subscription, a relay-delivered event arriving before the asynchronous
relay close completes still invokes the caller `onevent` (the callbacks of
`subscribe` are not cleared; only the bus listener is detached), so it is
not the case that no arriving event ever invokes `onevent` after close. -/
theorem close_does_not_suppress_relay_onevent :
    (closeRun (fun _ => true) closeInit
        [CloseAction.close,
         CloseAction.relayDeliver
           { id := "e1", pubkey := "p", created_at := 100, kind := 1, tags := [],
             content := "" }]).delivered =
      [{ id := "e1", pubkey := "p", created_at := 100, kind := 1, tags := [], content := "" }] ∧
    [{ id := "e1", pubkey := "p", created_at := 100, kind := 1, tags := [],
       content := "" }] ≠ ([] : List NEvent) := by
  exact ⟨rfl, by simp⟩

/-- Claim C9 (amended): `close()` is idempotent and synchronously detaches
the local event-bus listener, which is never re-attached, so bus-delivered
events never invoke `onevent` after close; relay sub-subscriptions are
released asynchronously, and relay events may still invoke `onevent` until
that release completes; the timeline closers additionally clear the caller
`onEvents`/`onNew` callbacks to no-ops synchronously, so after a timeline
close no arriving event of any kind reaches the caller callbacks. -/
theorem close_semantics (matchf : NEvent → Bool) :
    (∀ s : CloseSubState,
      closeStep matchf (closeStep matchf s .close) .close = closeStep matchf s .close) ∧
    (∀ s : CloseSubState, (closeStep matchf s .close).busAttached = false) ∧
    (∀ (s : CloseSubState) (a : CloseAction), s.busAttached = false →
      (closeStep matchf s a).busAttached = false) ∧
    (∀ (s : CloseSubState) (e : NEvent), s.busAttached = false →
      closeStep matchf s (.busDeliver e) = s) ∧
    (∀ (s : CloseSubState) (tr : List CloseAction), s.busAttached = false →
      (∀ a ∈ tr, isRelayDeliver a = false) →
      (closeRun matchf s tr).delivered = s.delivered) ∧
    (∀ s : TLCloseState, (tlStep matchf s .close).cbActive = false) ∧
    (∀ (s : TLCloseState) (tr : List CloseAction), s.cbActive = false →
      (tlRun matchf s tr).emitted = s.emitted) := by
  refine ⟨fun s => rfl, fun s => rfl, ?_, ?_, ?_, fun s => rfl, ?_⟩
  · intro s a hb
    cases a with
    | relayDeliver e =>
      simp only [closeStep]
      split
      · split
        · exact hb
        · exact hb
      · exact hb
    | busDeliver e =>
      simp only [closeStep]
      rw [hb]
      simpa using hb
    | close => rfl
    | relayCloseDone =>
      simp only [closeStep]
      split
      · exact hb
      · exact hb
  · intro s e hb
    simp only [closeStep]
    rw [hb]
    simp
  · intro s tr
    induction tr generalizing s with
    | nil => intro _ _; rfl
    | cons a rest ih =>
      intro hb hnone
      have hna : isRelayDeliver a = false := hnone a (List.mem_cons_self a rest)
      have hrest : ∀ x ∈ rest, isRelayDeliver x = false :=
        fun x hx => hnone x (List.mem_cons_of_mem a hx)
      have hstep : (closeStep matchf s a).delivered = s.delivered ∧
          (closeStep matchf s a).busAttached = false := by
        cases a with
        | relayDeliver e => simp [isRelayDeliver] at hna
        | busDeliver e =>
          constructor
          · simp only [closeStep]
            rw [hb]
            simp
          · simp only [closeStep]
            rw [hb]
            simpa using hb
        | close => exact ⟨rfl, rfl⟩
        | relayCloseDone =>
          constructor
          · simp only [closeStep]
            split
            · rfl
            · rfl
          · simp only [closeStep]
            split
            · exact hb
            · exact hb
      have := ih (closeStep matchf s a) hstep.2 hrest
      simp only [closeRun, List.foldl_cons] at *
      rw [this, hstep.1]
  · intro s tr
    induction tr generalizing s with
    | nil => intro _; rfl
    | cons a rest ih =>
      intro hcb
      have hstep : (tlStep matchf s a).emitted = s.emitted ∧
          (tlStep matchf s a).cbActive = false := by
        cases a with
        | relayDeliver e => simp [tlStep, hcb]
        | busDeliver e => simp [tlStep, hcb]
        | close => exact ⟨rfl, rfl⟩
        | relayCloseDone => simp [tlStep, hcb]
      have := ih (tlStep matchf s a) hstep.2
      simp only [tlRun, List.foldl_cons] at *
      rw [this, hstep.1]

theorem close_semantics_witness :
    (closeRun (fun _ => true)
        { busAttached := false, relayOpen := true, closeRequested := true, knownIds := [],
          delivered := [] }
        [CloseAction.busDeliver
          { id := "e2", pubkey := "p", created_at := 100, kind := 1, tags := [], content := "" },
         CloseAction.relayCloseDone]).delivered = [] :=
  (close_semantics (fun _ => true)).2.2.2.2.1
    { busAttached := false, relayOpen := true, closeRequested := true, knownIds := [],
      delivered := [] }
    [CloseAction.busDeliver
      { id := "e2", pubkey := "p", created_at := 100, kind := 1, tags := [], content := "" },
     CloseAction.relayCloseDone] rfl (by decide)

/-! ## Relay list fetching (`fetchRelayList` / `fetchRelayLists`)

`fetchRelayLists(pubkeys)` obtains one aligned store result per pubkey
from `fetchReplaceableEventsFromBigRelays` (each slot `undefined` for
unknown, `null` for known-absent, or a relay-list event) and maps every
slot: a truthy event goes through `getRelayListFromEvent`, and any falsy
slot becomes the fixed big-relay fallback object. `fetchRelayList(pubkey)`
destructures the singleton result. `getRelayListFromEvent` lives in
`@/lib/event-metadata`, outside the provided sources, and is kept
abstract: the claim holds for every such function. -/

/-- `TRelayList`: the relay-list object returned to callers. The element
type of `originalRelays` is irrelevant to the claim and kept as strings. -/
structure TRelayList where
  read : List String
  write : List String
  originalRelays : List String
deriving DecidableEq, Repr

/-- `BIG_RELAY_URLS` from the constants module. -/
def BIG_RELAY_URLS : List String :=
  ["wss://relay.damus.io/", "wss://relay.nostr.band/", "wss://relay.primal.net/", "wss://nos.lol/"]

/-- One aligned slot of `fetchReplaceableEventsFromBigRelays`:
`undefined` (unknown), `null` (known-absent) or a found event. -/
inductive StoreResult where
  | unknown
  | absent
  | found (e : NEvent)
deriving DecidableEq, Repr

def isFound : StoreResult → Bool
  | .found _ => true
  | _ => false

/-- The mapping step of `fetchRelayLists`: `if (event) return
getRelayListFromEvent(event)`, else the big-relay fallback. -/
def fetchRelayListsModel (grl : NEvent → TRelayList) (relayEvents : List StoreResult) :
    List TRelayList :=
  relayEvents.map (fun r =>
    match r with
    | .found e => grl e
    | _ => { write := BIG_RELAY_URLS, read := BIG_RELAY_URLS, originalRelays := [] })

/-- `fetchRelayList(pubkey)`: destructure the single-element result of
`fetchRelayLists([pubkey])`. -/
def fetchRelayListModel (grl : NEvent → TRelayList) (r : StoreResult) : Option TRelayList :=
  (fetchRelayListsModel grl [r]).head?

/-- Claim C10: for every pubkey and every behaviour of the store and of
`getRelayListFromEvent`, `fetchRelayList` resolves to a relay-list object
and never to null or undefined; when no relay-list event is found (the
slot is `undefined` or `null`), the result is exactly the object with the
fixed big-relay url set as both `read` and `write` and an empty
`originalRelays`; and `fetchRelayLists` returns one object per requested
pubkey, with every event-less slot mapped to that same fallback. -/
theorem fetchRelayList_never_null (grl : NEvent → TRelayList) :
    (∀ r : StoreResult, ∃ rl : TRelayList, fetchRelayListModel grl r = some rl) ∧
    (∀ r : StoreResult, isFound r = false →
      fetchRelayListModel grl r =
        some { write := BIG_RELAY_URLS, read := BIG_RELAY_URLS, originalRelays := [] }) ∧
    (∀ results : List StoreResult, (fetchRelayListsModel grl results).length = results.length) ∧
    (∀ (results : List StoreResult) (i : Nat) (h : i < results.length), isFound results[i] = false →
      (fetchRelayListsModel grl results)[i]? =
        some { write := BIG_RELAY_URLS, read := BIG_RELAY_URLS, originalRelays := [] }) := by
  refine ⟨?_, ?_, ?_, ?_⟩
  · intro r
    cases r with
    | unknown => exact ⟨_, rfl⟩
    | absent => exact ⟨_, rfl⟩
    | found e => exact ⟨grl e, rfl⟩
  · intro r hr
    cases r with
    | unknown => rfl
    | absent => rfl
    | found e => simp [isFound] at hr
  · intro results
    simp [fetchRelayListsModel]
  · intro results i h hr
    have hlen : i < (fetchRelayListsModel grl results).length := by
      simp [fetchRelayListsModel]
      omega
    rw [List.getElem?_eq_getElem hlen]
    simp only [fetchRelayListsModel, List.getElem_map]
    cases hres : results[i] with
    | unknown => rfl
    | absent => rfl
    | found e =>
      rw [hres] at hr
      simp [isFound] at hr

theorem fetchRelayList_never_null_witness :
    fetchRelayListModel (fun _ => { read := [], write := [], originalRelays := [] })
        StoreResult.absent =
      some { write := BIG_RELAY_URLS, read := BIG_RELAY_URLS, originalRelays := [] } :=
  (fetchRelayList_never_null (fun _ => { read := [], write := [], originalRelays := [] })).2.1
    StoreResult.absent (by decide)

end Seewaan
